import Mathlib

/-!
Shallow embedding of the HexEditor repository (src/main.rs, src/terminal_buffer.rs).

Bytes are modelled as `Nat` (u8 values), `usize` as `Nat`; Rust release-mode
wrapping arithmetic is made explicit with `% USIZE` at the one place the source
can actually overflow (`HexView::move_cursor_down` on an empty document).
-/

def BYTES_PER_LINE : Nat := 16

/-- Wrap-around modulus of `usize` (64-bit targets). Release builds wrap at this
modulus; debug builds abort on overflow. -/
def USIZE : Nat := 2 ^ 64

/-- One rendered line (src/main.rs, `struct HexViewLine`): `offset` is the line's
starting byte offset (the source stores it already formatted as an 8-digit
uppercase hex string, which no claim inspects), `bytes` the line's bytes. -/
structure HexViewLine where
  offset : Nat
  bytes : List Nat
deriving DecidableEq

/-- src/main.rs, `struct Cursor`. -/
structure Cursor where
  x : Nat
  y : Nat
  is_visible : Bool
  is_left_nibble : Bool
deriving DecidableEq

/-- src/main.rs, `impl Default for Cursor`. -/
def Cursor.default : Cursor :=
  { x := 0, y := 0, is_visible := false, is_left_nibble := true }

/-- src/main.rs, `struct HexView`. -/
structure HexView where
  lines : List HexViewLine
  cursor : Cursor
deriving DecidableEq

/-- The `while offset < data.len()` loop of `HexView::new`, with an explicit fuel
so the definition is structurally recursive; each iteration consumes at least one
byte, so `data.length` units of fuel (see `buildLines`) are always enough. -/
def buildLinesAux : Nat → List Nat → Nat → List HexViewLine
  | 0, _, _ => []
  | fuel + 1, data, offset =>
    if data = [] then []
    else
      { offset := offset, bytes := data.take BYTES_PER_LINE } ::
        buildLinesAux fuel (data.drop BYTES_PER_LINE) (offset + BYTES_PER_LINE)

/-- The `while offset < data.len()` loop of `HexView::new`: each iteration takes
the next `BYTES_PER_LINE` bytes, or the remaining tail when fewer are left. -/
def buildLines (data : List Nat) (offset : Nat) : List HexViewLine :=
  buildLinesAux data.length data offset

/-- src/main.rs, `HexView::new`. -/
def HexView.new (data : List Nat) : HexView :=
  { lines := buildLines data 0, cursor := Cursor.default }

/-- src/main.rs, `HexView::get_data_as_bytes`: push every byte of every line, in
order. -/
def HexView.get_data_as_bytes (hv : HexView) : List Nat :=
  (hv.lines.map (fun l => l.bytes)).flatten

/-- src/main.rs, `HexView::get_selected_byte` (read view: the source returns a
mutable reference; the claims only need which byte, if any, is addressed). -/
def HexView.get_selected_byte (hv : HexView) : Option Nat :=
  match hv.lines[hv.cursor.y]? with
  | some line => line.bytes[hv.cursor.x]?
  | none => none

/-- src/main.rs, `HexView::move_cursor_left`. -/
def HexView.move_cursor_left (hv : HexView) : HexView :=
  if !hv.cursor.is_visible then
    { hv with cursor := { hv.cursor with is_visible := true } }
  else if !hv.cursor.is_left_nibble then
    { hv with cursor := { hv.cursor with is_left_nibble := true } }
  else if hv.cursor.x = 0 ∧ hv.cursor.is_left_nibble = true then hv
  else
    { hv with cursor := { hv.cursor with is_left_nibble := false, x := if 1 ≤ hv.cursor.x then hv.cursor.x - 1 else hv.cursor.x } }

/-- src/main.rs, `HexView::move_cursor_right`. Note the column is clamped at
`BYTES_PER_LINE - 1`, not at the current line's length. -/
def HexView.move_cursor_right (hv : HexView) : HexView :=
  if !hv.cursor.is_visible then
    { hv with cursor := { hv.cursor with is_visible := true } }
  else if hv.cursor.is_left_nibble then
    { hv with cursor := { hv.cursor with is_left_nibble := false } }
  else if hv.cursor.x = BYTES_PER_LINE - 1 ∧ hv.cursor.is_left_nibble = false then hv
  else
    { hv with cursor := { hv.cursor with is_left_nibble := true, x := min (hv.cursor.x + 1) (BYTES_PER_LINE - 1) } }

/-- src/main.rs, `HexView::move_cursor_up` (`checked_sub` guards the decrement). -/
def HexView.move_cursor_up (hv : HexView) : HexView :=
  if !hv.cursor.is_visible then
    { hv with cursor := { hv.cursor with is_visible := true } }
  else
    { hv with cursor := { hv.cursor with y := if 1 ≤ hv.cursor.y then hv.cursor.y - 1 else hv.cursor.y } }

/-- src/main.rs, `HexView::move_cursor_down`. `self.lines.len() - 1` is unguarded
usize arithmetic: on an empty document it underflows (release builds wrap to
`USIZE - 1`, modelled here; debug builds abort). -/
def HexView.move_cursor_down (hv : HexView) : HexView :=
  if !hv.cursor.is_visible then
    { hv with cursor := { hv.cursor with is_visible := true } }
  else
    { hv with cursor := { hv.cursor with y := min ((hv.cursor.y + 1) % USIZE) ((hv.lines.length + (USIZE - 1)) % USIZE) } }

/-- src/main.rs, the hex-digit edit branch of `main` (`KeyCode::Char(key) if
key.is_digit(16)`): `d` is `key.to_digit(16).unwrap()`; the `as u8` cast and the
u8 shift are modelled with the explicit `% 256`. -/
def write_nibble (hv : HexView) (d : Nat) : HexView :=
  if hv.cursor.is_visible then
    match hv.lines[hv.cursor.y]? with
    | some line =>
      match line.bytes[hv.cursor.x]? with
      | some b =>
        let b' := if hv.cursor.is_left_nibble
          then (b &&& 0xF) ||| (((d % 256) <<< 4) % 256)
          else (b &&& 0xF0) ||| ((d % 256) &&& 0xF)
        { hv with lines := hv.lines.set hv.cursor.y { line with bytes := line.bytes.set hv.cursor.x b' } }
      | none => hv
    | none => hv
  else hv

/-- Total number of document bytes held by a `HexView`. -/
def docLen (hv : HexView) : Nat :=
  hv.get_data_as_bytes.length

/-- The spec's cursor invariant, strengthened to be visibility-independent (the
cursor position never changes while invisible, so this form is inductive). -/
def cursorInBounds (hv : HexView) : Prop :=
  docLen hv ≠ 0 → hv.cursor.y * BYTES_PER_LINE + hv.cursor.x < docLen hv

/-- src/terminal_buffer.rs: the two `crossterm` colors the program uses. -/
inductive Color where
  | black
  | white
deriving DecidableEq

/-- src/terminal_buffer.rs, `struct Cell`. -/
structure Cell where
  ch : Char
  fg : Color
  bg : Color
deriving DecidableEq

/-- src/terminal_buffer.rs, `impl Default for Cell`. -/
def Cell.default : Cell := { ch := ' ', fg := Color.white, bg := Color.black }

/-- src/terminal_buffer.rs, `struct TerminalBuffer`: a flat row-major cell list. -/
structure TerminalBuffer where
  cells : List Cell
  w : Nat
  h : Nat
deriving DecidableEq

/-- src/terminal_buffer.rs, `TerminalBuffer::new`. -/
def TerminalBuffer.new (w h : Nat) : TerminalBuffer :=
  { cells := List.replicate (w * h) Cell.default, w := w, h := h }

/-- src/terminal_buffer.rs, `struct Patch`. -/
structure Patch where
  cell : Cell
  x : Nat
  y : Nat
deriving DecidableEq

/-- src/terminal_buffer.rs, `TerminalBuffer::put_cell`: `Vec::get_mut` makes the
write a no-op exactly when the linear index `y*w + x` is out of range
(`List.set` beyond the length is likewise a no-op). -/
def TerminalBuffer.put_cell (buf : TerminalBuffer) (x y : Nat) (ch : Char) (fg bg : Color) : TerminalBuffer :=
  { buf with cells := buf.cells.set (y * buf.w + x) { ch := ch, fg := fg, bg := bg } }

/-- src/terminal_buffer.rs, `TerminalBuffer::put_cells`: character `i` of `chs`
goes to linear index `y*w + x + i`, each write guarded exactly like `put_cell`. -/
def TerminalBuffer.put_cells (buf : TerminalBuffer) (x y : Nat) (chs : List Char) (fg bg : Color) : TerminalBuffer :=
  let cs := chs.enum.foldl (fun cs p => cs.set (y * buf.w + x + p.1) { ch := p.2, fg := fg, bg := bg }) buf.cells
  { buf with cells := cs }

/-- src/terminal_buffer.rs, `TerminalBuffer::diff`. The source `assert!`s equal
dimensions; the abort is modelled as `none`. -/
def TerminalBuffer.diff (self other : TerminalBuffer) : Option (List Patch) :=
  if self.w = other.w ∧ self.h = other.h then
    some ((((self.cells.zip other.cells).enum).filter (fun p => decide (¬ p.2.1 = p.2.2))).map
      (fun p => { cell := p.2.1, x := p.1 % self.w, y := p.1 / self.w }))
  else none

/-- The effect of one patch of src/terminal_buffer.rs `apply_patches` on the cell
grid it is drawn over: the cell at `(x, y)` becomes the patch's cell. -/
def applyPatch (buf : TerminalBuffer) (p : Patch) : TerminalBuffer :=
  { buf with cells := buf.cells.set (p.y * buf.w + p.x) p.cell }

/-- src/terminal_buffer.rs, `apply_patches`, as its effect on a cell grid. -/
def applyPatches (buf : TerminalBuffer) (ps : List Patch) : TerminalBuffer :=
  ps.foldl applyPatch buf

example : (HexView.new [1, 2, 3]).lines.length = 1 := by decide
example : (HexView.new (List.replicate 17 0)).lines.length = 2 := by decide
example : (HexView.new [1, 2, 3]).get_data_as_bytes = [1, 2, 3] := by decide

theorem buildLinesAux_nil (fuel offset : Nat) : buildLinesAux fuel [] offset = [] := by
  cases fuel <;> simp [buildLinesAux]

theorem buildLinesAux_fuel (fuel fuel' : Nat) (data : List Nat) (offset : Nat)
    (h : data.length ≤ fuel) (h' : data.length ≤ fuel') :
    buildLinesAux fuel data offset = buildLinesAux fuel' data offset := by
  induction fuel generalizing fuel' data offset with
  | zero =>
    have hd : data = [] := by cases data <;> simp_all
    subst hd
    simp [buildLinesAux_nil]
  | succ fuel ih =>
    by_cases hd : data = []
    · subst hd; simp [buildLinesAux_nil]
    · have hpos : 0 < data.length := List.length_pos.mpr hd
      cases fuel' with
      | zero => omega
      | succ fuel' =>
        simp only [buildLinesAux]
        rw [if_neg hd, if_neg hd]
        refine congrArg (List.cons _) (ih fuel' _ _ ?_ ?_) <;>
          simp only [List.length_drop, BYTES_PER_LINE] <;> omega

theorem buildLines_eq (data : List Nat) (offset : Nat) :
    buildLines data offset =
      if data = [] then []
      else
        { offset := offset, bytes := data.take BYTES_PER_LINE } ::
          buildLines (data.drop BYTES_PER_LINE) (offset + BYTES_PER_LINE) := by
  by_cases hd : data = []
  · subst hd; simp [buildLines, buildLinesAux_nil]
  · have hpos : 0 < data.length := List.length_pos.mpr hd
    obtain ⟨k, hk⟩ : ∃ k, data.length = k + 1 := ⟨data.length - 1, by omega⟩
    simp only [buildLines, hk, buildLinesAux, hd, if_neg, if_false]
    refine congrArg (List.cons _) (buildLinesAux_fuel _ _ _ _ ?_ ?_) <;>
      simp only [List.length_drop, BYTES_PER_LINE] <;> omega

theorem buildLinesAux_length (fuel : Nat) (data : List Nat) (offset : Nat)
    (h : data.length ≤ fuel) :
    (buildLinesAux fuel data offset).length =
      (data.length + (BYTES_PER_LINE - 1)) / BYTES_PER_LINE := by
  induction fuel generalizing data offset with
  | zero =>
    have hd : data = [] := by cases data <;> simp_all
    subst hd
    simp [buildLinesAux_nil, BYTES_PER_LINE]
  | succ fuel ih =>
    by_cases hd : data = []
    · subst hd; simp [buildLinesAux_nil, BYTES_PER_LINE]
    · have hpos : 0 < data.length := List.length_pos.mpr hd
      have hrec := ih (data.drop BYTES_PER_LINE) (offset + BYTES_PER_LINE)
        (by simp only [List.length_drop, BYTES_PER_LINE]; omega)
      simp only [buildLinesAux, hd, if_neg, if_false, List.length_cons, hrec,
        List.length_drop, BYTES_PER_LINE] at *
      omega

theorem buildLinesAux_getD (fuel : Nat) (data : List Nat) (offset i : Nat)
    (h : data.length ≤ fuel) :
    ((buildLinesAux fuel data offset).getD i { offset := 0, bytes := [] }).bytes =
      (data.drop (i * BYTES_PER_LINE)).take BYTES_PER_LINE := by
  induction fuel generalizing data offset i with
  | zero =>
    have hd : data = [] := by cases data <;> simp_all
    subst hd
    simp [buildLinesAux_nil]
  | succ fuel ih =>
    by_cases hd : data = []
    · subst hd; simp [buildLinesAux_nil]
    · cases i with
      | zero => simp [buildLinesAux, hd]
      | succ i =>
        have hrec := ih (data.drop BYTES_PER_LINE) (offset + BYTES_PER_LINE) i
          (by simp only [List.length_drop, BYTES_PER_LINE]; omega)
        simp only [buildLinesAux, hd, if_neg, if_false, List.getD_cons_succ, hrec,
          List.drop_drop]
        have harith : BYTES_PER_LINE + i * BYTES_PER_LINE = (i + 1) * BYTES_PER_LINE := by ring
        rw [harith]

theorem buildLinesAux_flatten (fuel : Nat) (data : List Nat) (offset : Nat)
    (h : data.length ≤ fuel) :
    ((buildLinesAux fuel data offset).map (fun l => l.bytes)).flatten = data := by
  induction fuel generalizing data offset with
  | zero =>
    have hd : data = [] := by cases data <;> simp_all
    subst hd
    simp [buildLinesAux_nil]
  | succ fuel ih =>
    by_cases hd : data = []
    · subst hd; simp [buildLinesAux_nil]
    · have hpos : 0 < data.length := List.length_pos.mpr hd
      have hrec := ih (data.drop BYTES_PER_LINE) (offset + BYTES_PER_LINE)
        (by simp only [List.length_drop, BYTES_PER_LINE]; omega)
      simp only [buildLinesAux, hd, if_neg, if_false, List.map_cons, List.flatten_cons, hrec]
      exact List.take_append_drop _ _

/-- C1: `HexView::new` with line width `L = BYTES_PER_LINE = 16` partitions the
input into `⌈N/L⌉` lines, line `i` holding exactly the bytes at offsets
`[i*L, min(N, (i+1)*L))`, and with zero edits `get_data_as_bytes` returns a
sequence equal to the original input, with the same length. -/
theorem C1_layout_roundtrip (data : List Nat) (i : Nat) :
    (HexView.new data).lines.length = (data.length + (BYTES_PER_LINE - 1)) / BYTES_PER_LINE ∧
    ((HexView.new data).lines.getD i { offset := 0, bytes := [] }).bytes =
      (data.drop (i * BYTES_PER_LINE)).take BYTES_PER_LINE ∧
    (HexView.new data).get_data_as_bytes = data ∧
    (HexView.new data).get_data_as_bytes.length = data.length := by
  have h1 := buildLinesAux_length data.length data 0 le_rfl
  have h2 := buildLinesAux_getD data.length data 0 i le_rfl
  have h3 := buildLinesAux_flatten data.length data 0 le_rfl
  refine ⟨h1, h2, h3, by rw [show (HexView.new data).get_data_as_bytes = _ from h3]⟩

theorem getElem?_none_of_le {α : Type} (l : List α) (i : Nat) (h : l.length ≤ i) : l[i]? = none := by
  induction l generalizing i with
  | nil => simp
  | cons b l ih =>
    cases i with
    | zero => simp at h
    | succ i => simpa using ih i (by simpa using h)

theorem lt_length_of_getElem?_some {α : Type} {l : List α} {i : Nat} {a : α}
    (h : l[i]? = some a) : i < l.length := by
  by_contra hc
  rw [getElem?_none_of_le l i (by omega)] at h
  exact Option.noConfusion h

theorem getElem?_set_eq_some {α : Type} (l : List α) (i : Nat) (a : α) (h : i < l.length) :
    (l.set i a)[i]? = some a := by
  induction l generalizing i with
  | nil => simp at h
  | cons b l ih =>
    cases i with
    | zero => simp
    | succ i => simpa using ih i (by simpa using h)

theorem getD_set {α : Type} (l : List α) (i j : Nat) (a d : α) :
    (l.set i a).getD j d = if i = j ∧ j < l.length then a else l.getD j d := by
  induction l generalizing i j with
  | nil => simp
  | cons b l ih =>
    cases i with
    | zero =>
      cases j with
      | zero => simp
      | succ j => simp
    | succ i =>
      cases j with
      | zero => simp
      | succ j =>
        simp only [List.set_cons_succ, List.getD_cons_succ, ih, List.length_cons]
        split_ifs <;> first | rfl | omega

/-- C2: with the cursor on the high (left) nibble the byte under the cursor
becomes `(d <<< 4) ||| (b &&& 0xF)`; on the low (right) nibble it becomes
`(b &&& 0xF0) ||| (d &&& 0xF)` — exactly one nibble is replaced, the other kept. -/
theorem C2_nibble_edit (hv : HexView) (b d : Nat)
    (hvis : hv.cursor.is_visible = true)
    (hb : hv.get_selected_byte = some b) (hd : d < 16) :
    (write_nibble hv d).get_selected_byte =
      some (if hv.cursor.is_left_nibble then (d <<< 4) ||| (b &&& 0xF)
            else (b &&& 0xF0) ||| (d &&& 0xF)) := by
  unfold HexView.get_selected_byte at hb
  cases hy : hv.lines[hv.cursor.y]? with
  | none => rw [hy] at hb; exact absurd hb (by simp)
  | some line =>
    rw [hy] at hb
    have hb' : line.bytes[hv.cursor.x]? = some b := hb
    have hylt := lt_length_of_getElem?_some hy
    have hxlt := lt_length_of_getElem?_some hb'
    have hdm : d % 256 = d := Nat.mod_eq_of_lt (by omega)
    have hshift : (d <<< 4) % 256 = d <<< 4 := by
      rw [Nat.shiftLeft_eq]
      exact Nat.mod_eq_of_lt (by omega)
    by_cases hn : hv.cursor.is_left_nibble = true
    · have h2 := getElem?_set_eq_some line.bytes hv.cursor.x ((b &&& 0xF) ||| (d <<< 4)) hxlt
      have h1 := getElem?_set_eq_some hv.lines hv.cursor.y
        { line with bytes := line.bytes.set hv.cursor.x ((b &&& 0xF) ||| (d <<< 4)) } hylt
      simp [write_nibble, hvis, hy, hb', hn, hdm, hshift, HexView.get_selected_byte, h1, h2]
      rw [Nat.lor_comm]
    · simp only [Bool.not_eq_true] at hn
      have h2 := getElem?_set_eq_some line.bytes hv.cursor.x ((b &&& 0xF0) ||| (d &&& 0xF)) hxlt
      have h1 := getElem?_set_eq_some hv.lines hv.cursor.y
        { line with bytes := line.bytes.set hv.cursor.x ((b &&& 0xF0) ||| (d &&& 0xF)) } hylt
      simp [write_nibble, hvis, hy, hb', hn, hdm, HexView.get_selected_byte, h1, h2]

theorem C2_nibble_edit_witness :
    (write_nibble (HexView.new [0x42]).move_cursor_left 5).get_selected_byte =
      some (if ((HexView.new [0x42]).move_cursor_left).cursor.is_left_nibble
            then (5 <<< 4) ||| (0x42 &&& 0xF)
            else (0x42 &&& 0xF0) ||| (5 &&& 0xF)) :=
  C2_nibble_edit (HexView.new [0x42]).move_cursor_left 0x42 5 (by decide) (by decide) (by decide)

/-- C8: from an invisible-cursor state, each of the four directional moves only
sets `is_visible` and leaves the whole position (line, column, nibble side)
unchanged, consuming the keypress. -/
theorem C8_wake_on_first_press (hv : HexView) (h : hv.cursor.is_visible = false) :
    hv.move_cursor_left = { hv with cursor := { hv.cursor with is_visible := true } } ∧
    hv.move_cursor_right = { hv with cursor := { hv.cursor with is_visible := true } } ∧
    hv.move_cursor_up = { hv with cursor := { hv.cursor with is_visible := true } } ∧
    hv.move_cursor_down = { hv with cursor := { hv.cursor with is_visible := true } } := by
  refine ⟨?_, ?_, ?_, ?_⟩ <;>
    simp [HexView.move_cursor_left, HexView.move_cursor_right, HexView.move_cursor_up,
      HexView.move_cursor_down, h]

theorem C8_wake_on_first_press_witness :
    (HexView.new [1]).move_cursor_left =
      { HexView.new [1] with cursor := { (HexView.new [1]).cursor with is_visible := true } } :=
  (C8_wake_on_first_press (HexView.new [1]) (by decide)).1

/-- C9: when the cursor addresses no existing byte (line out of range, or column
at or past the current line's length), the hex-digit edit is a silent no-op. -/
theorem C9_edit_without_byte_is_noop (hv : HexView) (d : Nat)
    (h : hv.lines[hv.cursor.y]? = none ∨
      ∃ line, hv.lines[hv.cursor.y]? = some line ∧ line.bytes.length ≤ hv.cursor.x) :
    write_nibble hv d = hv := by
  by_cases hvis : hv.cursor.is_visible = true
  · rcases h with hnone | ⟨line, hl, hx⟩
    · simp [write_nibble, hvis, hnone]
    · have hbx : line.bytes[hv.cursor.x]? = none := getElem?_none_of_le _ _ hx
      simp [write_nibble, hvis, hl, hbx]
  · simp [write_nibble, hvis]

theorem C9_edit_without_byte_is_noop_witness :
    write_nibble
      { lines := [{ offset := 0, bytes := [1] }],
        cursor := { x := 5, y := 0, is_visible := true, is_left_nibble := true } } 3 =
      { lines := [{ offset := 0, bytes := [1] }],
        cursor := { x := 5, y := 0, is_visible := true, is_left_nibble := true } } :=
  C9_edit_without_byte_is_noop
    { lines := [{ offset := 0, bytes := [1] }],
      cursor := { x := 5, y := 0, is_visible := true, is_left_nibble := true } } 3
    (Or.inr ⟨{ offset := 0, bytes := [1] }, rfl, by decide⟩)

/-- C10: while the cursor is invisible a hex-digit keypress performs no edit at
all — the whole `HexView`, document bytes and cursor state alike, is unchanged. -/
theorem C10_invisible_ignores_hex_digit (hv : HexView) (d : Nat)
    (h : hv.cursor.is_visible = false) : write_nibble hv d = hv := by
  simp [write_nibble, h]

theorem C10_invisible_ignores_hex_digit_witness :
    write_nibble (HexView.new [7]) 3 = HexView.new [7] :=
  C10_invisible_ignores_hex_digit (HexView.new [7]) 3 (by decide)

theorem move_cursor_left_lines (hv : HexView) : hv.move_cursor_left.lines = hv.lines := by
  unfold HexView.move_cursor_left
  split_ifs <;> rfl

theorem move_cursor_up_lines (hv : HexView) : hv.move_cursor_up.lines = hv.lines := by
  unfold HexView.move_cursor_up
  split_ifs <;> rfl

theorem move_cursor_left_cursor (hv : HexView) :
    hv.move_cursor_left.cursor.y = hv.cursor.y ∧
    hv.move_cursor_left.cursor.x ≤ hv.cursor.x := by
  unfold HexView.move_cursor_left
  split_ifs <;> constructor <;> simp

theorem move_cursor_up_cursor (hv : HexView) :
    hv.move_cursor_up.cursor.y ≤ hv.cursor.y ∧
    hv.move_cursor_up.cursor.x = hv.cursor.x := by
  unfold HexView.move_cursor_up
  split_ifs <;> constructor <;> simp

theorem move_cursor_right_cursor (hv : HexView) :
    hv.move_cursor_right.cursor.y = hv.cursor.y ∧
    hv.move_cursor_right.cursor.x ≤ max hv.cursor.x (BYTES_PER_LINE - 1) := by
  unfold HexView.move_cursor_right
  split_ifs <;> constructor <;> simp

theorem write_nibble_cursor (hv : HexView) (d : Nat) : (write_nibble hv d).cursor = hv.cursor := by
  by_cases h : hv.cursor.is_visible = true
  · cases hy : hv.lines[hv.cursor.y]? with
    | none => simp [write_nibble, h, hy]
    | some line =>
      cases hb : line.bytes[hv.cursor.x]? with
      | none => simp [write_nibble, h, hy, hb]
      | some b => simp [write_nibble, h, hy, hb]
  · simp [write_nibble, h]

theorem flatten_map_set_length (lines : List HexViewLine) (y : Nat) (nl : HexViewLine)
    (hlen : ∀ line, lines[y]? = some line → nl.bytes.length = line.bytes.length) :
    ((lines.set y nl).map (fun l => l.bytes)).flatten.length =
      (lines.map (fun l => l.bytes)).flatten.length := by
  induction lines generalizing y with
  | nil => simp
  | cons a lines ih =>
    cases y with
    | zero =>
      have h := hlen a (by simp)
      simp [h]
    | succ y =>
      simp only [List.set_cons_succ, List.map_cons, List.flatten_cons, List.length_append]
      rw [ih y (fun line hl => hlen line (by simpa using hl))]

theorem docLen_write_nibble (hv : HexView) (d : Nat) : docLen (write_nibble hv d) = docLen hv := by
  by_cases h : hv.cursor.is_visible = true
  · cases hy : hv.lines[hv.cursor.y]? with
    | none => simp [write_nibble, h, hy]
    | some line =>
      cases hb : line.bytes[hv.cursor.x]? with
      | none => simp [write_nibble, h, hy, hb]
      | some b =>
        have hw : write_nibble hv d = { hv with lines := hv.lines.set hv.cursor.y { line with bytes := line.bytes.set hv.cursor.x (if hv.cursor.is_left_nibble then (b &&& 0xF) ||| (((d % 256) <<< 4) % 256) else (b &&& 0xF0) ||| ((d % 256) &&& 0xF)) } } := by
          simp [write_nibble, h, hy, hb]
        rw [hw]
        simp only [docLen, HexView.get_data_as_bytes]
        apply flatten_map_set_length
        intro line' hl'
        have hll : line = line' := by rw [hy] at hl'; injection hl'
        subst hll
        simp
  · simp [write_nibble, h]

/-- C3 is refuted on the code: from reachable, invariant-satisfying states, a
right move on a one-byte document puts the cursor at byte index 1 (out of a
1-byte document), and a down move onto the short last line of a 17-byte document
puts it at byte index 21 (out of a 17-byte document). -/
theorem C3_cursor_invariant_counterexample :
    ((HexView.move_cursor_right^[3] (HexView.new [0x41])).cursor.is_visible = true ∧
      docLen (HexView.move_cursor_right^[3] (HexView.new [0x41])) = 1 ∧
      (HexView.move_cursor_right^[3] (HexView.new [0x41])).cursor.y * BYTES_PER_LINE +
        (HexView.move_cursor_right^[3] (HexView.new [0x41])).cursor.x = 1) ∧
    ((HexView.move_cursor_right^[11] (HexView.new (List.replicate 17 0))).cursor.is_visible = true ∧
      (HexView.move_cursor_right^[11] (HexView.new (List.replicate 17 0))).cursor.y * BYTES_PER_LINE +
        (HexView.move_cursor_right^[11] (HexView.new (List.replicate 17 0))).cursor.x = 5 ∧
      docLen (HexView.move_cursor_down (HexView.move_cursor_right^[11] (HexView.new (List.replicate 17 0)))) = 17 ∧
      (HexView.move_cursor_down (HexView.move_cursor_right^[11] (HexView.new (List.replicate 17 0)))).cursor.y * BYTES_PER_LINE +
        (HexView.move_cursor_down (HexView.move_cursor_right^[11] (HexView.new (List.replicate 17 0)))).cursor.x = 21) := by
  decide

/-- C3 amended: the in-bounds invariant `line*L + column < N` holds in the
initial state and is preserved by `move_cursor_left`, `move_cursor_up` and the
hex-digit edit; `move_cursor_right` (clamping only at `L-1`) and
`move_cursor_down` (not re-clamping the column) can move the cursor past the
last byte of a shorter last line. -/
theorem C3_cursor_invariant_amended (data : List Nat) (hv : HexView) (d : Nat)
    (h : cursorInBounds hv) :
    cursorInBounds (HexView.new data) ∧
    cursorInBounds hv.move_cursor_left ∧
    cursorInBounds hv.move_cursor_up ∧
    cursorInBounds (write_nibble hv d) ∧
    (hv.cursor.is_visible = true → docLen hv ≠ 0 →
      hv.cursor.y * BYTES_PER_LINE + hv.cursor.x < docLen hv) := by
  refine ⟨?_, ?_, ?_, ?_, fun _ => h⟩
  · intro hne
    simp only [HexView.new, Cursor.default]
    simpa using Nat.pos_of_ne_zero hne
  · intro hne
    have hdl : docLen hv.move_cursor_left = docLen hv := by
      simp only [docLen, HexView.get_data_as_bytes, move_cursor_left_lines]
    rw [hdl] at hne ⊢
    have hc := move_cursor_left_cursor hv
    have hb := h hne
    simp only [BYTES_PER_LINE] at hb ⊢
    omega
  · intro hne
    have hdl : docLen hv.move_cursor_up = docLen hv := by
      simp only [docLen, HexView.get_data_as_bytes, move_cursor_up_lines]
    rw [hdl] at hne ⊢
    have hc := move_cursor_up_cursor hv
    have hb := h hne
    simp only [BYTES_PER_LINE] at hb ⊢
    omega
  · intro hne
    rw [docLen_write_nibble] at hne ⊢
    rw [write_nibble_cursor]
    exact h hne

theorem C3_cursor_invariant_amended_witness : cursorInBounds (HexView.new [2]) :=
  (C3_cursor_invariant_amended [2] (HexView.new [3]) 4 (by intro hne; decide)).1

/-- C6 is refuted on the code: on a 3-byte document (one line of length 3, last
valid column 2), a reachable state has the cursor on the low nibble of column 2;
the next right move is not a no-op and moves the column to 3, outside
`[0, lineLength-1]`. -/
theorem C6_horizontal_counterexample :
    ((HexView.move_cursor_right^[6] (HexView.new [0, 0, 0])).cursor.x = 2 ∧
      (HexView.move_cursor_right^[6] (HexView.new [0, 0, 0])).cursor.is_left_nibble = false ∧
      (HexView.move_cursor_right^[6] (HexView.new [0, 0, 0])).cursor.is_visible = true ∧
      ((HexView.move_cursor_right^[6] (HexView.new [0, 0, 0])).lines.getD 0 { offset := 0, bytes := [] }).bytes.length = 3) ∧
    (HexView.move_cursor_right^[7] (HexView.new [0, 0, 0])).cursor.x = 3 := by
  decide

/-- C6 amended: left/right never change the cursor's line and keep the column in
`[0, BYTES_PER_LINE - 1]` — the fixed width L = 16, not the current line's
length; right on the low nibble at column `L - 1` is a no-op, but on a shorter
last line right keeps advancing the column (up to `L - 1`) past the line's last
valid column. -/
theorem C6_horizontal_moves_amended (hv : HexView) (h : hv.cursor.x < BYTES_PER_LINE) :
    hv.move_cursor_left.cursor.y = hv.cursor.y ∧
    hv.move_cursor_right.cursor.y = hv.cursor.y ∧
    hv.move_cursor_left.cursor.x < BYTES_PER_LINE ∧
    hv.move_cursor_right.cursor.x < BYTES_PER_LINE ∧
    (hv.cursor.is_visible = true → hv.cursor.is_left_nibble = false →
      hv.cursor.x = BYTES_PER_LINE - 1 → hv.move_cursor_right = hv) := by
  refine ⟨(move_cursor_left_cursor hv).1, (move_cursor_right_cursor hv).1, ?_, ?_, ?_⟩
  · have hc := (move_cursor_left_cursor hv).2
    omega
  · have hc := (move_cursor_right_cursor hv).2
    simp only [BYTES_PER_LINE] at *
    omega
  · intro h1 h2 h3
    simp [HexView.move_cursor_right, h1, h2, h3]

theorem C6_horizontal_moves_amended_witness :
    (HexView.new [1, 2, 3]).move_cursor_left.cursor.y = (HexView.new [1, 2, 3]).cursor.y :=
  (C6_horizontal_moves_amended (HexView.new [1, 2, 3]) (by decide)).1

/-- C7 is refuted on the code: on the empty document (`lineCount = 0`) the down
move is not a guarded no-op — `lines.len() - 1` underflows (debug builds abort;
with release wrapping the clamp is `usize::MAX` and the line increments). -/
theorem C7_empty_doc_counterexample :
    (HexView.move_cursor_down (HexView.new [])).cursor.is_visible = true ∧
    (HexView.move_cursor_down (HexView.new [])).cursor.y = 0 ∧
    (HexView.new []).lines.length = 0 ∧
    (HexView.move_cursor_down (HexView.move_cursor_down (HexView.new []))).cursor.y = 1 := by
  decide

/-- C7 amended: for a visible cursor on a non-empty document, up decrements the
line clamped at 0 and down increments it clamped at `lineCount - 1`, both leaving
column and nibble side unchanged; on an empty document down is unguarded
(`lines.len() - 1` underflows) rather than a safe no-op. -/
theorem C7_vertical_moves_amended (hv : HexView)
    (hvis : hv.cursor.is_visible = true)
    (hne : hv.lines ≠ [])
    (hlen : hv.lines.length ≤ USIZE)
    (hy : hv.cursor.y + 1 < USIZE) :
    hv.move_cursor_up.cursor.y = hv.cursor.y - 1 ∧
    hv.move_cursor_down.cursor.y = min (hv.cursor.y + 1) (hv.lines.length - 1) ∧
    hv.move_cursor_up.cursor.x = hv.cursor.x ∧
    hv.move_cursor_up.cursor.is_left_nibble = hv.cursor.is_left_nibble ∧
    hv.move_cursor_down.cursor.x = hv.cursor.x ∧
    hv.move_cursor_down.cursor.is_left_nibble = hv.cursor.is_left_nibble := by
  have hpos : 0 < hv.lines.length := List.length_pos.mpr hne
  have h1 : (hv.cursor.y + 1) % USIZE = hv.cursor.y + 1 := Nat.mod_eq_of_lt hy
  have h2 : (hv.lines.length + (USIZE - 1)) % USIZE = hv.lines.length - 1 := by
    simp only [USIZE] at *
    omega
  refine ⟨?_, ?_, ?_, ?_, ?_, ?_⟩
  · simp [HexView.move_cursor_up, hvis]
    omega
  · simp [HexView.move_cursor_down, hvis, h1, h2]
  · simp [HexView.move_cursor_up, hvis]
  · simp [HexView.move_cursor_up, hvis]
  · simp [HexView.move_cursor_down, hvis]
  · simp [HexView.move_cursor_down, hvis]

theorem C7_vertical_moves_amended_witness :
    (HexView.move_cursor_up (HexView.new [1, 2])).move_cursor_down.cursor.y =
      min ((HexView.move_cursor_up (HexView.new [1, 2])).cursor.y + 1)
        ((HexView.move_cursor_up (HexView.new [1, 2])).lines.length - 1) :=
  (C7_vertical_moves_amended (HexView.move_cursor_up (HexView.new [1, 2])) (by decide) (by decide)
    (by decide) (by decide)).2.1

theorem put_cells_foldl_getD (chs : List Char) (fg bg : Color) (start : Nat) (n : Nat)
    (cs : List Cell) (j : Nat) (d : Cell) :
    ((List.enumFrom n chs).foldl (fun acc p => acc.set (start + p.1) ({ ch := p.2, fg := fg, bg := bg } : Cell)) cs).getD j d =
      if start + n ≤ j ∧ j < start + n + chs.length ∧ j < cs.length
      then { ch := chs.getD (j - (start + n)) ' ', fg := fg, bg := bg }
      else cs.getD j d := by
  induction chs generalizing n cs with
  | nil =>
    rw [show List.enumFrom n ([] : List Char) = [] from rfl, List.foldl_nil]
    rw [if_neg (by simp only [List.length_nil]; omega)]
  | cons c chs ih =>
    rw [show List.enumFrom n (c :: chs) = (n, c) :: List.enumFrom (n + 1) chs from rfl,
      List.foldl_cons]
    rw [ih]
    rw [List.length_set]
    by_cases h1 : start + (n + 1) ≤ j ∧ j < start + (n + 1) + chs.length ∧ j < cs.length
    · rw [if_pos h1, if_pos (by simp only [List.length_cons]; omega)]
      have hj : j - (start + n) = (j - (start + (n + 1))) + 1 := by omega
      rw [hj, List.getD_cons_succ]
    · rw [if_neg h1, getD_set]
      by_cases h2 : start + n = j ∧ j < cs.length
      · rw [if_pos h2, if_pos (by simp only [List.length_cons]; omega)]
        have hj : j - (start + n) = 0 := by omega
        rw [hj, List.getD_cons_zero]
      · rw [if_neg h2, if_neg (by simp only [List.length_cons]; omega)]

/-- C5 is refuted on the code: `put_cell` at `x = 2` on a 2x2 buffer (x ≥ W, an
out-of-bounds call per the claim) writes to linear index 2, i.e. cell (0, 1) of
the next row; `put_cells` likewise wraps a run onto the next row. -/
theorem C5_out_of_bounds_counterexample :
    ((TerminalBuffer.new 2 2).put_cell 2 0 'X' Color.white Color.white).cells ≠
      (TerminalBuffer.new 2 2).cells ∧
    ((TerminalBuffer.new 2 2).put_cells 1 0 ['a', 'b'] Color.white Color.white).cells.getD 2 Cell.default =
      { ch := 'b', fg := Color.white, bg := Color.white } := by
  decide

/-- C5 amended: `put_cell` writes the cell at linear index `y*W + x` whenever that
index is below `W*H` (the cells length) and is a silent no-op otherwise; a call
with `x ≥ W` whose linear index is still in range therefore wraps onto a later
row instead of being a no-op. `put_cells` writes character `i` at linear index
`y*W + x + i` under the same per-cell rule, likewise wrapping onto following rows
rather than stopping at the row end. -/
theorem C5_put_writes_by_linear_index (buf : TerminalBuffer) (x y j : Nat) (ch : Char)
    (fg bg : Color) (chs : List Char) (d : Cell) :
    ((buf.put_cell x y ch fg bg).cells.getD j d =
      if y * buf.w + x = j ∧ j < buf.cells.length then { ch := ch, fg := fg, bg := bg }
      else buf.cells.getD j d) ∧
    ((buf.put_cells x y chs fg bg).cells.getD j d =
      if y * buf.w + x ≤ j ∧ j < y * buf.w + x + chs.length ∧ j < buf.cells.length
      then { ch := chs.getD (j - (y * buf.w + x)) ' ', fg := fg, bg := bg }
      else buf.cells.getD j d) := by
  constructor
  · rw [show (buf.put_cell x y ch fg bg).cells = buf.cells.set (y * buf.w + x) { ch := ch, fg := fg, bg := bg } from rfl]
    exact getD_set buf.cells (y * buf.w + x) j { ch := ch, fg := fg, bg := bg } d
  · rw [show (buf.put_cells x y chs fg bg).cells = (List.enumFrom 0 chs).foldl (fun acc p => acc.set (y * buf.w + x + p.1) ({ ch := p.2, fg := fg, bg := bg } : Cell)) buf.cells from rfl]
    have h := put_cells_foldl_getD chs fg bg (y * buf.w + x) 0 buf.cells j d
    simpa using h

theorem diff_core (as bs : List Cell) (w n : Nat) :
    (((as.zip bs).enumFrom n).filter (fun p => decide (¬ p.2.1 = p.2.2))).map
        (fun p => ({ cell := p.2.1, x := p.1 % w, y := p.1 / w } : Patch)) =
      ((List.range (min as.length bs.length)).filter
          (fun i => decide (¬ as.getD i Cell.default = bs.getD i Cell.default))).map
        (fun i => ({ cell := as.getD i Cell.default, x := (n + i) % w, y := (n + i) / w } : Patch)) := by
  induction as generalizing bs n with
  | nil => simp
  | cons a as ih =>
    cases bs with
    | nil => simp
    | cons b bs =>
      have hmin : min (a :: as).length (b :: bs).length = min as.length bs.length + 1 := by
        simp [Nat.succ_min_succ]
      rw [List.zip_cons_cons,
        show List.enumFrom n ((a, b) :: as.zip bs) = (n, (a, b)) :: List.enumFrom (n + 1) (as.zip bs) from rfl,
        hmin, List.range_succ_eq_map, List.filter_cons, List.filter_cons]
      have htailL := ih bs (n + 1)
      have htailR :
          (List.filter (fun i => decide (¬ (a :: as).getD i Cell.default = (b :: bs).getD i Cell.default)) (List.map Nat.succ (List.range (min as.length bs.length)))).map (fun i => ({ cell := (a :: as).getD i Cell.default, x := (n + i) % w, y := (n + i) / w } : Patch)) =
            (List.filter (fun i => decide (¬ as.getD i Cell.default = bs.getD i Cell.default)) (List.range (min as.length bs.length))).map (fun i => ({ cell := as.getD i Cell.default, x := (n + 1 + i) % w, y := (n + 1 + i) / w } : Patch)) := by
        rw [List.filter_map, List.map_map]
        have hfil : List.filter ((fun i => decide (¬ (a :: as).getD i Cell.default = (b :: bs).getD i Cell.default)) ∘ Nat.succ) (List.range (min as.length bs.length)) = List.filter (fun i => decide (¬ as.getD i Cell.default = bs.getD i Cell.default)) (List.range (min as.length bs.length)) := by
          apply List.filter_congr
          intro i _
          simp [Function.comp, List.getD_cons_succ]
        rw [hfil]
        apply List.map_congr_left
        intro i _
        have hni : n + (i + 1) = n + 1 + i := by omega
        simp [Function.comp, List.getD_cons_succ, hni]
      by_cases hab : a = b
      · subst hab
        rw [if_neg (by simp), if_neg (by simp)]
        rw [htailL]
        exact htailR.symm
      · rw [if_pos (by simp [hab]), if_pos (by simp [hab]), List.map_cons, List.map_cons]
        refine congrArg₂ List.cons ?_ ?_
        · simp
        · rw [htailL]
          exact htailR.symm

theorem applyPatches_w (buf : TerminalBuffer) (ps : List Patch) :
    (applyPatches buf ps).w = buf.w := by
  induction ps generalizing buf with
  | nil => rfl
  | cons p ps ih =>
    have h := ih (applyPatch buf p)
    simpa [applyPatches, List.foldl_cons, applyPatch] using h

theorem applyPatches_h (buf : TerminalBuffer) (ps : List Patch) :
    (applyPatches buf ps).h = buf.h := by
  induction ps generalizing buf with
  | nil => rfl
  | cons p ps ih =>
    have h := ih (applyPatch buf p)
    simpa [applyPatches, List.foldl_cons, applyPatch] using h

theorem applyPatches_cells (buf : TerminalBuffer) (ps : List Patch) :
    (applyPatches buf ps).cells = ps.foldl (fun cs p => cs.set (p.y * buf.w + p.x) p.cell) buf.cells := by
  induction ps generalizing buf with
  | nil => rfl
  | cons p ps ih =>
    have h := ih (applyPatch buf p)
    simpa [applyPatches, List.foldl_cons, applyPatch] using h

theorem foldl_patch_set_length (is : List Nat) (w : Nat) (g : Nat → Cell) (cs : List Cell) :
    ((is.map (fun i => ({ cell := g i, x := i % w, y := i / w } : Patch))).foldl
        (fun cs p => cs.set (p.y * w + p.x) p.cell) cs).length = cs.length := by
  induction is generalizing cs with
  | nil => rfl
  | cons i is ih =>
    rw [List.map_cons, List.foldl_cons, ih]
    simp [List.length_set]

theorem foldl_patch_set_getD (is : List Nat) (w : Nat) (g : Nat → Cell) (cs : List Cell)
    (j : Nat) (d : Cell) :
    ((is.map (fun i => ({ cell := g i, x := i % w, y := i / w } : Patch))).foldl
        (fun cs p => cs.set (p.y * w + p.x) p.cell) cs).getD j d =
      if j ∈ is ∧ j < cs.length then g j else cs.getD j d := by
  induction is generalizing cs with
  | nil => simp
  | cons i is ih =>
    have hidx : i / w * w + i % w = i := by rw [Nat.mul_comm]; exact Nat.div_add_mod i w
    have hproj : cs.set (({ cell := g i, x := i % w, y := i / w } : Patch).y * w + ({ cell := g i, x := i % w, y := i / w } : Patch).x) ({ cell := g i, x := i % w, y := i / w } : Patch).cell = cs.set i (g i) := by
      simp [hidx]
    rw [List.map_cons, List.foldl_cons, hproj, ih, List.length_set, getD_set]
    by_cases h1 : j ∈ is <;> by_cases h2 : i = j <;> by_cases h3 : j < cs.length <;>
      simp [h1, h2, h3, List.mem_cons] <;>
      first
      | rfl
      | rw [if_neg (fun hji => h2 hji.symm)]

/-- C4: for frames of identical dimensions, `diff` returns, in row-major
cell-index order, exactly one patch per cell index at which the two cells differ
(in glyph, foreground or background) and none for unchanged cells; `diff A A` is
empty, and applying the patches of `diff A B` to `B` yields a frame cell-for-cell
equal to `A`. -/
theorem C4_diff_minimal_script (A B : TerminalBuffer)
    (hw : A.w = B.w) (hh : A.h = B.h)
    (hA : A.cells.length = A.w * A.h) (hB : B.cells.length = B.w * B.h) :
    A.diff A = some [] ∧
    A.diff B = some (((List.range (A.w * A.h)).filter
        (fun i => decide (¬ A.cells.getD i Cell.default = B.cells.getD i Cell.default))).map
      (fun i => ({ cell := A.cells.getD i Cell.default, x := i % A.w, y := i / A.w } : Patch))) ∧
    (∀ ps, A.diff B = some ps → (applyPatches B ps).cells = A.cells ∧
      (applyPatches B ps).w = B.w ∧ (applyPatches B ps).h = B.h) := by
  have hAA : A.diff A = some [] := by
    unfold TerminalBuffer.diff
    rw [if_pos ⟨rfl, rfl⟩]
    congr 1
    rw [show (A.cells.zip A.cells).enum = List.enumFrom 0 (A.cells.zip A.cells) from rfl, diff_core]
    simp
  have hAB : A.diff B = some (((List.range (A.w * A.h)).filter
      (fun i => decide (¬ A.cells.getD i Cell.default = B.cells.getD i Cell.default))).map
    (fun i => ({ cell := A.cells.getD i Cell.default, x := i % A.w, y := i / A.w } : Patch))) := by
    unfold TerminalBuffer.diff
    rw [if_pos ⟨hw, hh⟩]
    congr 1
    rw [show (A.cells.zip B.cells).enum = List.enumFrom 0 (A.cells.zip B.cells) from rfl, diff_core]
    rw [hA, hB, ← hw, ← hh, Nat.min_self]
    simp
  refine ⟨hAA, hAB, ?_⟩
  intro ps hps
  rw [hAB] at hps
  have hps' := Option.some.inj hps
  subst hps'
  refine ⟨?_, applyPatches_w B _, applyPatches_h B _⟩
  apply List.ext_getElem
  · rw [applyPatches_cells, ← hw, foldl_patch_set_length, hA, hB, hw, hh]
  · intro j hj1 hj2
    rw [← List.getD_eq_getElem _ Cell.default hj1, ← List.getD_eq_getElem _ Cell.default hj2]
    rw [applyPatches_cells, ← hw, foldl_patch_set_getD]
    by_cases hcell : A.cells.getD j Cell.default = B.cells.getD j Cell.default
    · have hne : ¬(j ∈ List.filter (fun i => decide (¬ A.cells.getD i Cell.default = B.cells.getD i Cell.default)) (List.range (A.w * A.h)) ∧ j < B.cells.length) := by
        intro hcon
        have hpred := (List.mem_filter.mp hcon.1).2
        rw [decide_eq_true_eq] at hpred
        exact absurd hcell hpred
      rw [if_neg hne]
      exact hcell.symm
    · have hjB : j < B.cells.length := by rw [hB, ← hw, ← hh, ← hA]; exact hj2
      rw [if_pos ⟨List.mem_filter.mpr ⟨List.mem_range.mpr (hA ▸ hj2), decide_eq_true hcell⟩, hjB⟩]

theorem C4_diff_minimal_script_witness :
    ((TerminalBuffer.new 2 1).put_cell 0 0 'A' Color.white Color.black).diff
      ((TerminalBuffer.new 2 1).put_cell 0 0 'A' Color.white Color.black) = some [] :=
  (C4_diff_minimal_script ((TerminalBuffer.new 2 1).put_cell 0 0 'A' Color.white Color.black)
    (TerminalBuffer.new 2 1) rfl rfl (by decide) (by decide)).1
